import Mathlib

/-!
Verification of the `walk_tree` parallel tree-traversal core
(`src/iter/walk_tree.rs`): the splittable traversal unit
`WalkTreeProducer` with its `split` and `fold_with` operations, the
bisection helper `split_vec`, and the adapter `WalkTree::drive_unindexed`.

A finite tree given by (root, expansion rule) is embedded as a rose tree
`Tree α`; the user-supplied `breed` function of the source becomes the
`Tree.children` projection, so `(self.breed)(&s)` is rendered as
`s.children`.

Representation conventions, fixed once and used throughout:
* a Rust `Vec` is a Lean `List` in the same order (index 0 = list head);
  `Vec::pop` removes the list's *last* element, `Vec::split_off(n)`
  keeps the first `n` elements and returns the rest;
* the `VecDeque` of sibling groups is a `List` whose head is the deque's
  front; `push_back` appends at the end;
* the `Folder` consumer of the plumbing layer is a state type `φ` with a
  `consume : φ → Tree α → φ` step and a `full : φ → Bool` predicate.
-/

set_option linter.unusedVariables false

namespace RayonWalk

/-- Finite rose tree: a node value together with the list of its children.
This is the shape of any finite tree generated from a root by an
expansion rule; the rule itself is recovered as the `children`
projection. -/
inductive Tree (α : Type) : Type where
  | node : α → List (Tree α) → Tree α

/-- The state stored at a node. -/
def Tree.val {α : Type} : Tree α → α
  | .node v _ => v

/-- The expansion rule applied to a node: the list of its children, in the
order the rule returns them. -/
def Tree.children {α : Type} : Tree α → List (Tree α)
  | .node _ cs => cs

mutual
/-- Number of nodes of a tree (termination measure). -/
def Tree.size {α : Type} : Tree α → Nat
  | .node _ cs => 1 + sizeL cs
/-- Total number of nodes of a list of trees. -/
def sizeL {α : Type} : List (Tree α) → Nat
  | [] => 0
  | t :: ts => Tree.size t + sizeL ts
end

@[simp] lemma sizeL_nil {α : Type} : sizeL ([] : List (Tree α)) = 0 := by
  simp [sizeL]

@[simp] lemma sizeL_cons {α : Type} (t : Tree α) (ts : List (Tree α)) :
    sizeL (t :: ts) = Tree.size t + sizeL ts := by
  simp [sizeL]

@[simp] lemma size_node {α : Type} (v : α) (cs : List (Tree α)) :
    Tree.size (Tree.node v cs) = 1 + sizeL cs := by
  simp [Tree.size]

@[simp] lemma sizeL_append {α : Type} (a b : List (Tree α)) :
    sizeL (a ++ b) = sizeL a + sizeL b := by
  induction a with
  | nil => simp
  | cons t ts ih => simp [ih]; omega

@[simp] lemma sizeL_reverse {α : Type} (l : List (Tree α)) :
    sizeL l.reverse = sizeL l := by
  induction l with
  | nil => simp
  | cons t ts ih => simp [ih]; omega

lemma size_pos {α : Type} (t : Tree α) : 1 ≤ Tree.size t := by
  cases t; simp

lemma size_eq_children {α : Type} (t : Tree α) :
    Tree.size t = 1 + sizeL t.children := by
  cases t; simp [Tree.children]

mutual
/-- Prefix depth-first order of a tree: the node itself, then its children's
subtrees recursively, left to right in the order the expansion rule
returns them. -/
def dfs {α : Type} : Tree α → List (Tree α)
  | .node v cs => .node v cs :: dfsList cs
/-- Prefix depth-first order of a forest, left to right. -/
def dfsList {α : Type} : List (Tree α) → List (Tree α)
  | [] => []
  | t :: ts => dfs t ++ dfsList ts
end

@[simp] lemma dfsList_nil {α : Type} : dfsList ([] : List (Tree α)) = [] := by
  simp [dfsList]

@[simp] lemma dfsList_cons {α : Type} (t : Tree α) (ts : List (Tree α)) :
    dfsList (t :: ts) = dfs t ++ dfsList ts := by
  simp [dfsList]

lemma dfs_def {α : Type} (t : Tree α) : dfs t = t :: dfsList t.children := by
  cases t; simp [dfs, Tree.children]

@[simp] lemma dfsList_append {α : Type} (a b : List (Tree α)) :
    dfsList (a ++ b) = dfsList a ++ dfsList b := by
  induction a with
  | nil => simp
  | cons t ts ih => simp [ih]

/-- The traversal unit (source struct `WalkTreeProducer`): `to_explore` is
the `VecDeque` of pending sibling groups (head = deque front; each group a
`Vec` whose *last* element is the next node popped by `fold_with`), and
`seen` the buffer of nodes already expanded but not yet delivered.  The
`breed` field of the source is the `Tree.children` projection here, and
`phantom` has no content. -/
structure WalkTreeProducer (α : Type) : Type where
  to_explore : List (List (Tree α))
  seen : List (Tree α)

/-- Source `split_vec`: `None` if the length is ≤ 1, otherwise
`v.split_off(v.len() / 2)`, which keeps the first `len / 2` elements in
`v` and removes and returns the rest.  The pair returned here is
(retained head, returned tail). -/
def split_vec {γ : Type} (v : List γ) : Option (List γ × List γ) :=
  if v.length ≤ 1 then none
  else some (v.take (v.length / 2), v.drop (v.length / 2))

/-- Total size of a frontier (termination measure for `drain`). -/
def frontierSize {α : Type} (q : List (List (Tree α))) : Nat :=
  (q.map sizeL).sum

@[simp] lemma frontierSize_nil {α : Type} :
    frontierSize ([] : List (List (Tree α))) = 0 := by
  simp [frontierSize]

@[simp] lemma frontierSize_cons {α : Type} (g : List (Tree α))
    (q : List (List (Tree α))) :
    frontierSize (g :: q) = sizeL g + frontierSize q := by
  simp [frontierSize]

@[simp] lemma frontierSize_append {α : Type} (a b : List (List (Tree α))) :
    frontierSize (a ++ b) = frontierSize a + frontierSize b := by
  simp [frontierSize]

/-- The chain-drain loop at the head of `WalkTreeProducer::split`: while the
front sibling group holds exactly one node, pop the group and its node,
generate the node's children (pushing them, in the order the rule returns
them, to the *back* of the deque as one group when non-empty), and append
the node to `seen`. -/
def drain {α : Type} (p : WalkTreeProducer α) : WalkTreeProducer α :=
  match hq : p.to_explore with
  | [t] :: rest =>
      if t.children.isEmpty then drain ⟨rest, p.seen ++ [t]⟩
      else drain ⟨rest ++ [t.children], p.seen ++ [t]⟩
  | _ => p
termination_by frontierSize p.to_explore
decreasing_by
  · simp [hq]
    have := size_pos t
    omega
  · simp [hq, size_eq_children t]
    omega

/-- Steps 3–4 of `split` (the `or_else` closure): try to bisect `seen`; the
retained head stays with the remainder, the returned tail becomes a new
unit with an empty frontier.  If `seen` is indivisible too, return
`(self, None)`. -/
def seenFallback {α : Type} (q : WalkTreeProducer α) :
    WalkTreeProducer α × Option (WalkTreeProducer α) :=
  match split_vec q.seen with
  | some (keepSeen, rightSeen) => (⟨q.to_explore, keepSeen⟩, some ⟨[], rightSeen⟩)
  | none => (q, none)

/-- Step 2 of `split`, applied after the chain drain: bisect the front
group in place; the retained head stays in the remainder's frontier, the
returned tail becomes the sole frontier group of the new unit (empty
`seen`).  When the front yields nothing, fall back to bisecting `seen`. -/
def splitDrained {α : Type} (q : WalkTreeProducer α) :
    WalkTreeProducer α × Option (WalkTreeProducer α) :=
  match q.to_explore with
  | f :: rest =>
      match split_vec f with
      | some (keep, right) => (⟨keep :: rest, q.seen⟩, some ⟨[right], []⟩)
      | none => seenFallback q
  | [] => seenFallback q

/-- Source `WalkTreeProducer::split`: chain-drain, then branch bisection,
then the `seen` fallback. -/
def split {α : Type} (p : WalkTreeProducer α) :
    WalkTreeProducer α × Option (WalkTreeProducer α) :=
  splitDrained (drain p)

section Folder

variable {α : Type} {φ : Type} (consume : φ → Tree α → φ) (full : φ → Bool)

/-- The `seen` loop of `fold_with`: deliver the items one after the other,
returning as soon as the folder reports full.  The boolean records whether
that early return happened.  (The same recursion is the generic early-exit
fold over an explicit item list, which is how the delivered sequence of
`fold_with` is stated.) -/
def consumeSeen (fl : φ) : List (Tree α) → φ × Bool
  | [] => (fl, false)
  | s :: rest =>
      let fl2 := consume fl s
      if full fl2 then (fl2, true) else consumeSeen fl2 rest

/-- The inner `while let Some(s) = e.pop()` loop of `fold_with`, with the
group read back-to-front (`er` lists the `Vec`'s elements from its popped
end towards its start, i.e. `er = e.reverse`).  Popping the `Vec`'s end is
taking `er`'s head; the source's `e.extend(children.rev())` puts the
reversed children at the popped end, which in this back-to-front reading
is `s.children ++ er`.  The node is bred, the children pushed, and only
then is the node delivered and the full check made. -/
def foldGroupRev (fl : φ) : List (Tree α) → φ × Bool
  | [] => (fl, false)
  | s :: er =>
      let fl2 := consume fl s
      if full fl2 then (fl2, true) else foldGroupRev fl2 (s.children ++ er)
termination_by er => sizeL er
decreasing_by
  simp only [sizeL_cons, sizeL_append, size_eq_children]
  omega

/-- The inner loop of `fold_with` on one sibling group as stored. -/
def foldGroup (fl : φ) (e : List (Tree α)) : φ × Bool :=
  foldGroupRev consume full fl e.reverse

/-- The outer `for mut e in self.to_explore` loop of `fold_with`: an early
return inside a group skips the remaining groups. -/
def foldGroups (fl : φ) : List (List (Tree α)) → φ
  | [] => fl
  | e :: rest =>
      match foldGroup consume full fl e with
      | (fl2, true) => fl2
      | (fl2, false) => foldGroups fl2 rest

/-- Source `WalkTreeProducer::fold_with`: drain `seen` first, then every
remaining frontier group front to back. -/
def fold_with (p : WalkTreeProducer α) (fl : φ) : φ :=
  match consumeSeen consume full fl p.seen with
  | (fl2, true) => fl2
  | (fl2, false) => foldGroups consume full fl2 p.to_explore

end Folder

/-- The producer `WalkTree::drive_unindexed` hands to `bridge_unindexed`:
frontier = one group holding only the root, empty `seen` buffer. -/
def initialProducer {α : Type} (t : Tree α) : WalkTreeProducer α :=
  ⟨[[t]], []⟩

/-- Sequential order in which the fold delivers one sibling group: the
group is consumed from its end, each popped node followed by its whole
subtree, so the group is read back-to-front. -/
def seqGroup {α : Type} (e : List (Tree α)) : List (Tree α) :=
  dfsList e.reverse

/-- Every item a unit still owns, in the order `fold_with` delivers them to
a never-full folder: the `seen` buffer first, then the frontier groups
front to back, each drained from its end. -/
def traversalOrder {α : Type} (p : WalkTreeProducer α) : List (Tree α) :=
  p.seen ++ p.to_explore.flatMap seqGroup

/-- `fold_with` at the list-collecting, never-full folder: the sequence of
delivered items. -/
def visit {α : Type} (p : WalkTreeProducer α) : List (Tree α) :=
  fold_with (fun l t => l ++ [t]) (fun _ => false) p []

/-- The values of the delivered items. -/
def visitVals {α : Type} (p : WalkTreeProducer α) : List α :=
  (visit p).map Tree.val

/-! ### Unfolding lemmas for the recursions -/

lemma drain_nil {α : Type} (sn : List (Tree α)) :
    drain ⟨[], sn⟩ = ⟨[], sn⟩ := by
  simp [drain]

lemma drain_big {α : Type} (a b : Tree α) (gs : List (Tree α))
    (rest : List (List (Tree α))) (sn : List (Tree α)) :
    drain ⟨(a :: b :: gs) :: rest, sn⟩ = ⟨(a :: b :: gs) :: rest, sn⟩ := by
  simp [drain]

lemma drain_one {α : Type} (t : Tree α) (rest : List (List (Tree α)))
    (sn : List (Tree α)) :
    drain ⟨[t] :: rest, sn⟩ =
      if t.children.isEmpty then drain ⟨rest, sn ++ [t]⟩
      else drain ⟨rest ++ [t.children], sn ++ [t]⟩ := by
  rw [drain]

section FolderLemmas

variable {α : Type} {φ : Type} (consume : φ → Tree α → φ) (full : φ → Bool)

lemma consumeSeen_nil (fl : φ) :
    consumeSeen consume full fl [] = (fl, false) := rfl

lemma consumeSeen_cons (fl : φ) (s : Tree α) (rest : List (Tree α)) :
    consumeSeen consume full fl (s :: rest) =
      (if full (consume fl s) then (consume fl s, true)
       else consumeSeen consume full (consume fl s) rest) := rfl

lemma foldGroupRev_nil (fl : φ) :
    foldGroupRev consume full fl [] = (fl, false) := by
  rw [foldGroupRev]

lemma foldGroupRev_cons (fl : φ) (s : Tree α) (er : List (Tree α)) :
    foldGroupRev consume full fl (s :: er) =
      (if full (consume fl s) then (consume fl s, true)
       else foldGroupRev consume full (consume fl s) (s.children ++ er)) := by
  rw [foldGroupRev]

/-- An early return inside a list makes every later item invisible. -/
lemma consumeSeen_append_stop (fl : φ) (xs ys : List (Tree α))
    (h : (consumeSeen consume full fl xs).2 = true) :
    consumeSeen consume full fl (xs ++ ys) = consumeSeen consume full fl xs := by
  induction xs generalizing fl with
  | nil => simp [consumeSeen_nil] at h
  | cons x xs ih =>
      by_cases hf : full (consume fl x)
      · simp [consumeSeen_cons, hf]
      · rw [consumeSeen_cons] at h
        simp only [hf, if_false] at h
        simp only [List.cons_append, consumeSeen_cons, hf, if_false]
        exact ih _ h

/-- Without an early return, consuming an appended list continues from the
folder the first part produced. -/
lemma consumeSeen_append_go (fl : φ) (xs ys : List (Tree α))
    (h : (consumeSeen consume full fl xs).2 = false) :
    consumeSeen consume full fl (xs ++ ys) =
      consumeSeen consume full (consumeSeen consume full fl xs).1 ys := by
  induction xs generalizing fl with
  | nil => simp [consumeSeen_nil]
  | cons x xs ih =>
      by_cases hf : full (consume fl x)
      · rw [consumeSeen_cons] at h
        simp [hf] at h
      · rw [consumeSeen_cons] at h
        simp only [hf, if_false] at h
        simp only [List.cons_append, consumeSeen_cons, hf, if_false]
        exact ih _ h

/-- Key linearization step: the pop-from-the-end loop on one sibling group
delivers exactly the depth-first sequence of the group read back-to-front,
with the same early-exit behaviour as a plain item-list fold. -/
lemma foldGroupRev_eq (fl : φ) (er : List (Tree α)) :
    foldGroupRev consume full fl er = consumeSeen consume full fl (dfsList er) := by
  have H : ∀ (n : Nat) (fl : φ) (er : List (Tree α)), sizeL er ≤ n →
      foldGroupRev consume full fl er = consumeSeen consume full fl (dfsList er) := by
    intro n
    induction n with
    | zero =>
        intro fl er h
        cases er with
        | nil => simp [foldGroupRev_nil, consumeSeen_nil]
        | cons s er' =>
            have := size_pos s
            simp only [sizeL_cons] at h
            omega
    | succ n ih =>
        intro fl er h
        cases er with
        | nil => simp [foldGroupRev_nil, consumeSeen_nil]
        | cons s er' =>
            rw [foldGroupRev_cons, dfsList_cons, dfs_def, List.cons_append,
              consumeSeen_cons]
            by_cases hf : full (consume fl s)
            · simp [hf]
            · simp only [hf, if_false]
              rw [← dfsList_append]
              apply ih
              have hs := size_eq_children s
              simp only [sizeL_cons] at h
              simp only [sizeL_append]
              omega
  exact H (sizeL er) fl er le_rfl

/-- The group loop on a stored group delivers `seqGroup` of the group. -/
lemma foldGroup_eq (fl : φ) (e : List (Tree α)) :
    foldGroup consume full fl e = consumeSeen consume full fl (seqGroup e) := by
  rw [foldGroup, seqGroup, foldGroupRev_eq]

/-- The outer loop over the frontier delivers the groups' sequences,
front group first, with early exit skipping everything later. -/
lemma foldGroups_eq (fl : φ) (q : List (List (Tree α))) :
    foldGroups consume full fl q =
      (consumeSeen consume full fl (q.flatMap seqGroup)).1 := by
  induction q generalizing fl with
  | nil => simp [foldGroups, consumeSeen_nil]
  | cons e rest ih =>
      rw [foldGroups, List.flatMap_cons]
      rcases hb : (consumeSeen consume full fl (seqGroup e)) with ⟨f2, b⟩
      cases b with
      | true =>
          rw [consumeSeen_append_stop consume full fl _ _ (by rw [hb]), hb]
          simp [foldGroup_eq, hb]
      | false =>
          rw [consumeSeen_append_go consume full fl _ _ (by rw [hb]), hb]
          simp only [foldGroup_eq, hb, ih]

/-- Linearization of `fold_with`: folding a unit is the early-exit fold of
its item list `traversalOrder`. -/
lemma fold_with_eq (p : WalkTreeProducer α) (fl : φ) :
    fold_with consume full p fl =
      (consumeSeen consume full fl (traversalOrder p)).1 := by
  rw [fold_with, traversalOrder]
  rcases hb : (consumeSeen consume full fl p.seen) with ⟨f2, b⟩
  cases b with
  | true =>
      rw [consumeSeen_append_stop consume full fl _ _ (by rw [hb]), hb]
  | false =>
      rw [consumeSeen_append_go consume full fl _ _ (by rw [hb]), hb]
      exact foldGroups_eq consume full f2 p.to_explore

/-- With a never-full folder no early exit happens: the run is a plain left
fold over the whole list. -/
lemma consumeSeen_neverFull (fl : φ) (l : List (Tree α)) :
    consumeSeen consume (fun _ => false) fl l = (List.foldl consume fl l, false) := by
  induction l generalizing fl with
  | nil => simp [consumeSeen_nil]
  | cons s rest ih => simp [consumeSeen_cons, ih, List.foldl_cons]

lemma fold_with_neverFull (p : WalkTreeProducer α) (fl : φ) :
    fold_with consume (fun _ => false) p fl =
      List.foldl consume fl (traversalOrder p) := by
  rw [fold_with_eq, consumeSeen_neverFull]

end FolderLemmas

lemma foldl_collect {α : Type} (a : List (Tree α)) (l : List (Tree α)) :
    List.foldl (fun r t => r ++ [t]) a l = a ++ l := by
  induction l generalizing a with
  | nil => simp
  | cons t ts ih => simp [List.foldl_cons, ih]

/-- The delivered sequence of a unit is its `traversalOrder`. -/
lemma visit_eq {α : Type} (p : WalkTreeProducer α) :
    visit p = traversalOrder p := by
  rw [visit, fold_with_neverFull, foldl_collect, List.nil_append]

@[simp] lemma seqGroup_singleton {α : Type} (t : Tree α) :
    seqGroup [t] = dfs t := by
  simp [seqGroup]

/-- The initial unit owns exactly the depth-first sequence of the tree. -/
lemma traversalOrder_init {α : Type} (t : Tree α) :
    traversalOrder (initialProducer t) = dfs t := by
  simp [traversalOrder, initialProducer]

/-! ### Breed-instrumented twins

The same recursions again, each also returning the list of nodes on which
the expansion rule (`Tree.children`, the source's `self.breed`) is
invoked, in invocation order.  `split` calls the rule only inside its
chain-drain loop; `fold_with` calls it only on the nodes popped inside the
group loop (the `seen` loop breeds nothing), and it breeds a popped node
before delivering it and checking `full`. -/

/-- `drain` with the breed log: the chain-drain breeds exactly the nodes
it moves into `seen`. -/
def drainB {α : Type} (p : WalkTreeProducer α) :
    WalkTreeProducer α × List (Tree α) :=
  match hq : p.to_explore with
  | [t] :: rest =>
      if t.children.isEmpty then
        let r := drainB ⟨rest, p.seen ++ [t]⟩
        (r.1, t :: r.2)
      else
        let r := drainB ⟨rest ++ [t.children], p.seen ++ [t]⟩
        (r.1, t :: r.2)
  | _ => (p, [])
termination_by frontierSize p.to_explore
decreasing_by
  · simp [hq]
    have := size_pos t
    omega
  · simp [hq, size_eq_children t]
    omega

/-- `split` with the breed log: bisection itself breeds nothing, so the
log is the chain-drain's. -/
def splitB {α : Type} (p : WalkTreeProducer α) :
    (WalkTreeProducer α × Option (WalkTreeProducer α)) × List (Tree α) :=
  (splitDrained (drainB p).1, (drainB p).2)

section FolderB

variable {α : Type} {φ : Type} (consume : φ → Tree α → φ) (full : φ → Bool)

/-- The group loop with the breed log (group read back-to-front). -/
def foldGroupRevB (fl : φ) : List (Tree α) → φ × Bool × List (Tree α)
  | [] => (fl, false, [])
  | s :: er =>
      let fl2 := consume fl s
      if full fl2 then (fl2, true, [s])
      else
        let r := foldGroupRevB fl2 (s.children ++ er)
        (r.1, r.2.1, s :: r.2.2)
termination_by er => sizeL er
decreasing_by
  simp only [sizeL_cons, sizeL_append, size_eq_children]
  omega

/-- The group loop with the breed log, on a group as stored. -/
def foldGroupB (fl : φ) (e : List (Tree α)) : φ × Bool × List (Tree α) :=
  foldGroupRevB consume full fl e.reverse

/-- The frontier loop with the breed log. -/
def foldGroupsB (fl : φ) : List (List (Tree α)) → φ × List (Tree α)
  | [] => (fl, [])
  | e :: rest =>
      let r := foldGroupB consume full fl e
      if r.2.1 then (r.1, r.2.2)
      else
        let r2 := foldGroupsB r.1 rest
        (r2.1, r.2.2 ++ r2.2)

/-- `fold_with` with the breed log: the `seen` loop breeds nothing. -/
def fold_withB (p : WalkTreeProducer α) (fl : φ) : φ × List (Tree α) :=
  match consumeSeen consume full fl p.seen with
  | (fl2, true) => (fl2, [])
  | (fl2, false) => foldGroupsB consume full fl2 p.to_explore

end FolderB

lemma drainB_nil {α : Type} (sn : List (Tree α)) :
    drainB ⟨[], sn⟩ = (⟨[], sn⟩, []) := by
  simp [drainB]

lemma drainB_empty_front {α : Type} (rest : List (List (Tree α)))
    (sn : List (Tree α)) :
    drainB ⟨[] :: rest, sn⟩ = (⟨[] :: rest, sn⟩, []) := by
  simp [drainB]

lemma drainB_big {α : Type} (a b : Tree α) (gs : List (Tree α))
    (rest : List (List (Tree α))) (sn : List (Tree α)) :
    drainB ⟨(a :: b :: gs) :: rest, sn⟩ = (⟨(a :: b :: gs) :: rest, sn⟩, []) := by
  simp [drainB]

lemma drainB_one {α : Type} (t : Tree α) (rest : List (List (Tree α)))
    (sn : List (Tree α)) :
    drainB ⟨[t] :: rest, sn⟩ =
      (if t.children.isEmpty then
        ((drainB ⟨rest, sn ++ [t]⟩).1, t :: (drainB ⟨rest, sn ++ [t]⟩).2)
       else
        ((drainB ⟨rest ++ [t.children], sn ++ [t]⟩).1,
          t :: (drainB ⟨rest ++ [t.children], sn ++ [t]⟩).2)) := by
  rw [drainB]

lemma drain_empty_front {α : Type} (rest : List (List (Tree α)))
    (sn : List (Tree α)) :
    drain ⟨[] :: rest, sn⟩ = ⟨[] :: rest, sn⟩ := by
  simp [drain]

/-- The instrumented drain computes `drain`, and `drain` moves exactly the
bred nodes into `seen`, in breed order. -/
lemma drainB_spec {α : Type} (p : WalkTreeProducer α) :
    (drainB p).1 = drain p ∧ (drain p).seen = p.seen ++ (drainB p).2 := by
  have H : ∀ (n : Nat) (p : WalkTreeProducer α), frontierSize p.to_explore ≤ n →
      (drainB p).1 = drain p ∧ (drain p).seen = p.seen ++ (drainB p).2 := by
    intro n
    induction n with
    | zero =>
        intro p h
        obtain ⟨q, sn⟩ := p
        cases q with
        | nil => simp [drainB_nil, drain_nil]
        | cons g rest =>
            cases g with
            | nil => simp [drainB_empty_front, drain_empty_front]
            | cons a g' =>
                have := size_pos a
                simp at h
                omega
    | succ n ih =>
        intro p h
        obtain ⟨q, sn⟩ := p
        cases q with
        | nil => simp [drainB_nil, drain_nil]
        | cons g rest =>
            cases g with
            | nil => simp [drainB_empty_front, drain_empty_front]
            | cons a g' =>
                cases g' with
                | nil =>
                    rw [drainB_one, drain_one]
                    by_cases hc : a.children.isEmpty
                    · simp only [hc, if_true]
                      have hm : frontierSize (⟨rest, sn ++ [a]⟩ :
                          WalkTreeProducer α).to_explore ≤ n := by
                        have := size_pos a
                        simp at h ⊢
                        omega
                      obtain ⟨h1, h2⟩ := ih _ hm
                      refine ⟨h1, ?_⟩
                      simp at h2 ⊢
                      simp [h2]
                    · simp only [hc, if_false]
                      have hm : frontierSize (⟨rest ++ [a.children], sn ++ [a]⟩ :
                          WalkTreeProducer α).to_explore ≤ n := by
                        have := size_eq_children a
                        simp at h ⊢
                        omega
                      obtain ⟨h1, h2⟩ := ih _ hm
                      refine ⟨h1, ?_⟩
                      simp at h2 ⊢
                      simp [h2]
                | cons b g'' =>
                    simp [drainB_big, drain_big]
  exact H (frontierSize p.to_explore) p le_rfl

section FolderBLemmas

variable {α : Type} {φ : Type} (consume : φ → Tree α → φ)

lemma foldGroupRevB_nil (fl : φ) :
    foldGroupRevB consume (fun _ => false) fl ([] : List (Tree α)) =
      (fl, false, []) := by
  rw [foldGroupRevB]

lemma foldGroupRevB_cons (fl : φ) (s : Tree α) (er : List (Tree α)) :
    foldGroupRevB consume (fun _ => false) fl (s :: er) =
      ((foldGroupRevB consume (fun _ => false) (consume fl s) (s.children ++ er)).1,
       (foldGroupRevB consume (fun _ => false) (consume fl s) (s.children ++ er)).2.1,
       s :: (foldGroupRevB consume (fun _ => false) (consume fl s)
         (s.children ++ er)).2.2) := by
  rw [foldGroupRevB]
  simp

/-- Under a never-full folder, the instrumented group loop breeds exactly
the nodes it delivers: the depth-first sequence of the group read
back-to-front. -/
lemma foldGroupRevB_neverFull (fl : φ) (er : List (Tree α)) :
    foldGroupRevB consume (fun _ => false) fl er =
      (List.foldl consume fl (dfsList er), false, dfsList er) := by
  have H : ∀ (n : Nat) (fl : φ) (er : List (Tree α)), sizeL er ≤ n →
      foldGroupRevB consume (fun _ => false) fl er =
        (List.foldl consume fl (dfsList er), false, dfsList er) := by
    intro n
    induction n with
    | zero =>
        intro fl er h
        cases er with
        | nil => simp [foldGroupRevB_nil]
        | cons s er' =>
            have := size_pos s
            simp only [sizeL_cons] at h
            omega
    | succ n ih =>
        intro fl er h
        cases er with
        | nil => simp [foldGroupRevB_nil]
        | cons s er' =>
            rw [foldGroupRevB_cons]
            have hm : sizeL (s.children ++ er') ≤ n := by
              have hs := size_eq_children s
              simp only [sizeL_cons] at h
              simp only [sizeL_append]
              omega
            rw [ih _ _ hm]
            rw [dfsList_cons, dfs_def]
            simp [dfsList_append]
  exact H (sizeL er) fl er le_rfl

lemma foldGroupsB_neverFull (fl : φ) (q : List (List (Tree α))) :
    foldGroupsB consume (fun _ => false) fl q =
      (List.foldl consume fl (q.flatMap seqGroup), q.flatMap seqGroup) := by
  induction q generalizing fl with
  | nil => simp [foldGroupsB]
  | cons e rest ih =>
      rw [foldGroupsB]
      simp only [foldGroupB, foldGroupRevB_neverFull, seqGroup]
      simp [ih, List.foldl_append, seqGroup]

/-- Under a never-full folder, a fold of a unit breeds exactly the
frontier-descended nodes, in delivery order, and none of the `seen`
buffer. -/
lemma fold_withB_neverFull (p : WalkTreeProducer α) (fl : φ) :
    fold_withB consume (fun _ => false) p fl =
      (List.foldl consume fl (traversalOrder p),
       p.to_explore.flatMap seqGroup) := by
  rw [fold_withB, consumeSeen_neverFull]
  simp only [foldGroupsB_neverFull, traversalOrder, List.foldl_append]

end FolderBLemmas

/-! ### The frontier invariant along split reachability -/

/-- The frontier holds at most one sibling group, and no stored group is
empty. -/
def GoodFrontier {α : Type} (p : WalkTreeProducer α) : Prop :=
  p.to_explore.length ≤ 1 ∧ ∀ g ∈ p.to_explore, g ≠ []

/-- The units obtainable from the adapter's initial unit by any sequence
of splits, keeping either half. -/
inductive Reachable {α : Type} (t : Tree α) : WalkTreeProducer α → Prop where
  | init : Reachable t (initialProducer t)
  | left {p : WalkTreeProducer α} : Reachable t p → Reachable t (split p).1
  | right {p q : WalkTreeProducer α} : Reachable t p → (split p).2 = some q →
      Reachable t q

lemma split_vec_eq_none {γ : Type} {v : List γ} (h : v.length ≤ 1) :
    split_vec v = none := by
  simp [split_vec, h]

lemma split_vec_eq_some {γ : Type} {v a b : List γ}
    (h : split_vec v = some (a, b)) :
    1 < v.length ∧ a = v.take (v.length / 2) ∧ b = v.drop (v.length / 2) := by
  rw [split_vec] at h
  split_ifs at h with hl
  cases h
  exact ⟨by omega, rfl, rfl⟩

/-- The chain drain preserves the frontier invariant. -/
lemma drain_good {α : Type} (p : WalkTreeProducer α) (hp : GoodFrontier p) :
    GoodFrontier (drain p) := by
  have H : ∀ (n : Nat) (p : WalkTreeProducer α), frontierSize p.to_explore ≤ n →
      GoodFrontier p → GoodFrontier (drain p) := by
    intro n
    induction n with
    | zero =>
        intro p h hp
        obtain ⟨q, sn⟩ := p
        cases q with
        | nil => rw [drain_nil]; exact hp
        | cons g rest =>
            have hg : g ≠ [] := hp.2 g (by simp)
            cases g with
            | nil => exact absurd rfl hg
            | cons a g' =>
                have := size_pos a
                simp at h
                omega
    | succ n ih =>
        intro p h hp
        obtain ⟨q, sn⟩ := p
        cases q with
        | nil => rw [drain_nil]; exact hp
        | cons g rest =>
            have hrest : rest = [] := by
              have h1 : (g :: rest).length ≤ 1 := hp.1
              simp only [List.length_cons] at h1
              exact List.length_eq_zero.mp (by omega)
            subst hrest
            have hg : g ≠ [] := hp.2 g (by simp)
            cases g with
            | nil => exact absurd rfl hg
            | cons a g' =>
                cases g' with
                | nil =>
                    rw [drain_one]
                    by_cases hc : a.children.isEmpty
                    · simp only [hc, if_true]
                      apply ih
                      · simp
                      · exact ⟨by simp, by simp⟩
                    · simp only [hc, if_false]
                      apply ih
                      · have := size_eq_children a
                        simp at h ⊢
                        omega
                      · refine ⟨by simp, ?_⟩
                        intro g hgm
                        simp at hgm
                        subst hgm
                        simpa [List.isEmpty_iff] using hc
                | cons b g'' =>
                    rw [drain_big]
                    exact hp
  exact H (frontierSize p.to_explore) p le_rfl hp

/-- After the chain drain, the front group (when the frontier is not
empty) is no singleton. -/
lemma drain_front {α : Type} (p : WalkTreeProducer α) :
    (drain p).to_explore = [] ∨
      ∃ g rest, (drain p).to_explore = g :: rest ∧ g.length ≠ 1 := by
  have H : ∀ (n : Nat) (p : WalkTreeProducer α), frontierSize p.to_explore ≤ n →
      (drain p).to_explore = [] ∨
        ∃ g rest, (drain p).to_explore = g :: rest ∧ g.length ≠ 1 := by
    intro n
    induction n with
    | zero =>
        intro p h
        obtain ⟨q, sn⟩ := p
        cases q with
        | nil => rw [drain_nil]; left; rfl
        | cons g rest =>
            cases g with
            | nil =>
                rw [drain_empty_front]
                right
                exact ⟨[], rest, rfl, by simp⟩
            | cons a g' =>
                have := size_pos a
                simp at h
                omega
    | succ n ih =>
        intro p h
        obtain ⟨q, sn⟩ := p
        cases q with
        | nil => rw [drain_nil]; left; rfl
        | cons g rest =>
            cases g with
            | nil =>
                rw [drain_empty_front]
                right
                exact ⟨[], rest, rfl, by simp⟩
            | cons a g' =>
                cases g' with
                | nil =>
                    rw [drain_one]
                    by_cases hc : a.children.isEmpty
                    · simp only [hc, if_true]
                      apply ih
                      simp at h ⊢
                      have := size_pos a
                      omega
                    · simp only [hc, if_false]
                      apply ih
                      have := size_eq_children a
                      simp at h ⊢
                      omega
                | cons b g'' =>
                    rw [drain_big]
                    right
                    exact ⟨a :: b :: g'', rest, rfl, by simp⟩
  exact H (frontierSize p.to_explore) p le_rfl

lemma seenFallback_good {α : Type} (q : WalkTreeProducer α) (hq : GoodFrontier q) :
    GoodFrontier (seenFallback q).1 ∧
      ∀ r, (seenFallback q).2 = some r → GoodFrontier r := by
  unfold seenFallback
  cases hsv : split_vec q.seen with
  | none =>
      simp only [hsv]
      exact ⟨hq, by intro r hr; cases hr⟩
  | some pr =>
      obtain ⟨k, rs⟩ := pr
      simp only [hsv]
      refine ⟨⟨hq.1, hq.2⟩, ?_⟩
      intro r hr
      cases hr
      exact ⟨by simp, by simp⟩

lemma splitDrained_good {α : Type} (q : WalkTreeProducer α) (hq : GoodFrontier q) :
    GoodFrontier (splitDrained q).1 ∧
      ∀ r, (splitDrained q).2 = some r → GoodFrontier r := by
  unfold splitDrained
  cases hq2 : q.to_explore with
  | nil => exact seenFallback_good q hq
  | cons f rest =>
      cases hsv : split_vec f with
      | none =>
          simp only [hsv]
          exact seenFallback_good q hq
      | some pr =>
          obtain ⟨keep, right⟩ := pr
          obtain ⟨hlen, hk, hr⟩ := split_vec_eq_some hsv
          simp only [hsv]
          have hrest : rest = [] := by
            have h1 := hq.1
            rw [hq2] at h1
            simp only [List.length_cons] at h1
            exact List.length_eq_zero.mp (by omega)
          constructor
          · constructor
            · simp [hrest]
            · intro g hg
              simp only [hrest, List.mem_cons, List.not_mem_nil, or_false] at hg
              subst hg
              subst hk
              apply List.ne_nil_of_length_pos
              simp only [List.length_take]
              omega
          · intro r hr2
            cases hr2
            constructor
            · simp
            · intro g hg
              simp only [List.mem_cons, List.not_mem_nil, or_false] at hg
              subst hg
              subst hr
              apply List.ne_nil_of_length_pos
              simp only [List.length_drop]
              omega

/-- `split` preserves the frontier invariant on both halves. -/
lemma split_good {α : Type} (p : WalkTreeProducer α) (hp : GoodFrontier p) :
    GoodFrontier (split p).1 ∧ ∀ r, (split p).2 = some r → GoodFrontier r := by
  unfold split
  exact splitDrained_good _ (drain_good p hp)

lemma initial_good {α : Type} (t : Tree α) :
    GoodFrontier (initialProducer t) := by
  constructor
  · simp [initialProducer]
  · intro g hg
    simp only [initialProducer, List.mem_cons, List.not_mem_nil, or_false] at hg
    subst hg
    simp

/-- Every split-reachable unit satisfies the frontier invariant. -/
lemma reachable_good {α : Type} {t : Tree α} {p : WalkTreeProducer α}
    (h : Reachable t p) : GoodFrontier p := by
  induction h with
  | init => exact initial_good t
  | left hp ih => exact (split_good _ ih).1
  | right hp hq ih => exact (split_good _ ih).2 _ hq

/-- The two halves of a split partition the post-drain `seen` buffer, the
remainder's part first. -/
lemma split_seen_partition {α : Type} (p : WalkTreeProducer α) :
    (split p).1.seen ++ (((split p).2).map WalkTreeProducer.seen).getD [] =
      (drain p).seen := by
  unfold split splitDrained
  cases hq2 : (drain p).to_explore with
  | nil =>
      unfold seenFallback
      cases hsv : split_vec (drain p).seen with
      | none => simp
      | some pr =>
          obtain ⟨k, rs⟩ := pr
          obtain ⟨hlen, hk, hr⟩ := split_vec_eq_some hsv
          subst hk
          subst hr
          simp [List.take_append_drop]
  | cons f rest =>
      cases hsv : split_vec f with
      | none =>
          simp only [hsv]
          unfold seenFallback
          cases hsv2 : split_vec (drain p).seen with
          | none => simp
          | some pr =>
              obtain ⟨k, rs⟩ := pr
              obtain ⟨hlen, hk, hr⟩ := split_vec_eq_some hsv2
              subst hk
              subst hr
              simp [List.take_append_drop]
      | some pr =>
          obtain ⟨keep, right⟩ := pr
          simp [hsv]

lemma visitVals_eq {α : Type} (p : WalkTreeProducer α) :
    visitVals p = (traversalOrder p).map Tree.val := by
  rw [visitVals, visit_eq]

/-- Behaviour of the early-exit run over an explicit item list: the result
is a left fold of some prefix, the full test was false at every properly
earlier point, running to the end means the prefix is everything, and an
early stop means the final folder is full. -/
lemma consumeSeen_spec {α : Type} {φ : Type} (consume : φ → Tree α → φ)
    (full : φ → Bool) (fl : φ) (l : List (Tree α)) :
    ∃ n, n ≤ l.length ∧
      (consumeSeen consume full fl l).1 = List.foldl consume fl (l.take n) ∧
      (∀ m, 0 < m → m < n → full (List.foldl consume fl (l.take m)) = false) ∧
      ((consumeSeen consume full fl l).2 = false → n = l.length) ∧
      ((consumeSeen consume full fl l).2 = true →
        full (consumeSeen consume full fl l).1 = true) := by
  induction l generalizing fl with
  | nil =>
      refine ⟨0, by simp, by simp [consumeSeen_nil], ?_, by simp, ?_⟩
      · intro m h0 h1; omega
      · intro h; rw [consumeSeen_nil] at h; cases h
  | cons x xs ih =>
      by_cases hf : full (consume fl x)
      · refine ⟨1, by simp, ?_, ?_, ?_, ?_⟩
        · rw [consumeSeen_cons]
          simp [hf, List.take_succ_cons]
        · intro m h0 h1; omega
        · intro h; rw [consumeSeen_cons] at h; simp [hf] at h
        · intro h; rw [consumeSeen_cons]; simp [hf]
      · obtain ⟨n, hn1, hn2, hn3, hn4, hn5⟩ := ih (consume fl x)
        refine ⟨n + 1, by simp; omega, ?_, ?_, ?_, ?_⟩
        · rw [consumeSeen_cons]
          simp only [hf, if_false]
          rw [List.take_succ_cons, List.foldl_cons]
          exact hn2
        · intro m h0 hm
          cases m with
          | zero => omega
          | succ m' =>
              rw [List.take_succ_cons, List.foldl_cons]
              cases Nat.eq_zero_or_pos m' with
              | inl h2 =>
                  subst h2
                  simpa using hf
              | inr h2 => exact hn3 m' h2 (by omega)
        · intro h
          rw [consumeSeen_cons] at h
          simp only [hf, if_false] at h
          simp [hn4 h]
        · intro h
          rw [consumeSeen_cons] at h ⊢
          simp only [hf, if_false] at h ⊢
          exact hn5 h

/-! ### Concrete scenarios -/

/-- A root with three leaf children: the smallest tree on which the split
and fold conventions for group storage disagree. -/
def t3 : Tree ℕ := .node 0 [.node 1 [], .node 2 [], .node 3 []]

/-- The expansion rule of the source's doc example (Scenario A). -/
def breed4 : ℕ → List ℕ := fun e => if e ≤ 2 then [] else [e / 2, e / 2 + 1]

/-- The finite tree Scenario A's rule generates from root 4. -/
def t4 : Tree ℕ :=
  .node 4 [.node 2 [], .node 3 [.node 1 [], .node 2 []]]

lemma drain_t3 :
    drain (initialProducer t3) =
      ⟨[[Tree.node 1 [], Tree.node 2 [], Tree.node 3 []]], [t3]⟩ := by
  show drain ⟨[[t3]], []⟩ = _
  rw [drain_one]
  simp only [t3, Tree.children, List.isEmpty_cons, if_false, Bool.false_eq_true,
    List.nil_append]
  rw [drain_big]

lemma split_t3 :
    split (initialProducer t3) =
      (⟨[[Tree.node 1 []]], [t3]⟩,
       some ⟨[[Tree.node 2 [], Tree.node 3 []]], []⟩) := by
  unfold split
  rw [drain_t3]
  simp [splitDrained, split_vec]

/-! ### The claims -/

/-- C1: the claim says splitting any number of times and folding every
piece, concatenating outputs left half before right half, reproduces the
unsplit sequential fold.  The code violates it: on a root with three leaf
children, one split leaves the remainder delivering [0, 1] and the other
half delivering [3, 2] — the other half's group [2, 3] was stored by the
chain drain in visitation order but is popped from its end — so the merged
output [0, 1, 3, 2] differs from the unsplit fold's [0, 1, 2, 3]. -/
theorem split_then_fold_breaks_dfs_order :
    visitVals (split (initialProducer t3)).1 = [0, 1] ∧
    ((split (initialProducer t3)).2.map visitVals).getD [] = [3, 2] ∧
    visitVals (initialProducer t3) = [0, 1, 2, 3] ∧
    visitVals (split (initialProducer t3)).1 ++
        ((split (initialProducer t3)).2.map visitVals).getD [] ≠
      visitVals (initialProducer t3) := by
  have h1 : visitVals (split (initialProducer t3)).1 = [0, 1] := by
    rw [split_t3, visitVals_eq]
    simp [traversalOrder, seqGroup, dfs, t3, Tree.val]
  have h2 : ((split (initialProducer t3)).2.map visitVals).getD [] = [3, 2] := by
    rw [split_t3]
    simp [visitVals_eq, traversalOrder, seqGroup, dfs, dfsList, Tree.val]
  have h3 : visitVals (initialProducer t3) = [0, 1, 2, 3] := by
    rw [visitVals_eq, traversalOrder_init]
    simp [dfs, dfsList, t3, Tree.val]
  refine ⟨h1, h2, h3, ?_⟩
  rw [h1, h2, h3]
  simp

/-- C2: with a never-full consumer, folding the initial unit (frontier =
one group holding only the root, empty `seen` buffer) delivers exactly the
prefix depth-first sequence of the tree: each node before its descendants,
children in the order the expansion rule returns them. -/
theorem fold_initial_delivers_dfs {α : Type} {φ : Type}
    (consume : φ → Tree α → φ) (t : Tree α) (fl : φ) :
    fold_with consume (fun _ => false) (initialProducer t) fl =
      List.foldl consume fl (dfs t) ∧
    visit (initialProducer t) = dfs t := by
  constructor
  · rw [fold_with_neverFull, traversalOrder_init]
  · rw [visit_eq, traversalOrder_init]

/-- C3: the claim says every frontier group is stored in reverse of
visitation order, maintained by both split's chain drain and fold's drain.
The code violates the split half: the chain drain of the root of `t3`
stores the children as [1, 2, 3] — visitation order, not its reverse — so
popping the group's end yields node 3 (the *last* child), and folding the
drained unit delivers 0, 3, 2, 1 instead of the depth-first 0, 1, 2, 3.
(Fold's own drain step does store children reversed.) -/
theorem chain_drain_stores_children_unreversed :
    drain (initialProducer t3) =
      ⟨[[Tree.node 1 [], Tree.node 2 [], Tree.node 3 []]], [t3]⟩ ∧
    [Tree.node (1 : ℕ) [], Tree.node 2 [], Tree.node 3 []].getLast? =
      some (Tree.node 3 []) ∧
    (Tree.node (3 : ℕ) [] : Tree ℕ) ≠ Tree.node 1 [] ∧
    visitVals (drain (initialProducer t3)) = [0, 3, 2, 1] ∧
    visitVals (initialProducer t3) = [0, 1, 2, 3] := by
  refine ⟨drain_t3, rfl, by simp, ?_, ?_⟩
  · rw [drain_t3, visitVals_eq]
    simp [traversalOrder, seqGroup, dfs, dfsList, t3, Tree.val]
  · rw [visitVals_eq, traversalOrder_init]
    simp [dfs, dfsList, t3, Tree.val]

/-- C4: the bisection helper returns `none` for length 0 or 1; for longer
vectors it keeps the earlier half in place and removes and returns the
later half, the two lengths differ by at most one, and head ++ tail is the
original vector in the original order. -/
theorem split_vec_bisection {γ : Type} (v : List γ) :
    (v.length ≤ 1 → split_vec v = none) ∧
    (1 < v.length →
      split_vec v = some (v.take (v.length / 2), v.drop (v.length / 2)) ∧
      v.take (v.length / 2) ++ v.drop (v.length / 2) = v ∧
      (v.take (v.length / 2)).length ≤ (v.drop (v.length / 2)).length ∧
      (v.drop (v.length / 2)).length ≤ (v.take (v.length / 2)).length + 1) := by
  refine ⟨fun h => split_vec_eq_none h, fun h => ⟨?_, List.take_append_drop _ _, ?_, ?_⟩⟩
  · rw [split_vec, if_neg (by omega)]
  · simp only [List.length_take, List.length_drop]
    omega
  · simp only [List.length_take, List.length_drop]
    omega

/-- C5: folding a unit delivers some prefix of the unit's traversal order:
the consumer was not full at any properly earlier point (fold stops
immediately when `full()` turns true), a stop before the end leaves the
final folder full, and the result is just the left fold of the delivered
prefix — the undelivered remainder is dropped without any error path. -/
theorem fold_early_termination {α : Type} {φ : Type} (consume : φ → Tree α → φ)
    (full : φ → Bool) (p : WalkTreeProducer α) (fl : φ) :
    ∃ n, n ≤ (traversalOrder p).length ∧
      fold_with consume full p fl =
        List.foldl consume fl ((traversalOrder p).take n) ∧
      (∀ m, 0 < m → m < n →
        full (List.foldl consume fl ((traversalOrder p).take m)) = false) ∧
      (n < (traversalOrder p).length → full (fold_with consume full p fl) = true) := by
  obtain ⟨n, h1, h2, h3, h4, h5⟩ := consumeSeen_spec consume full fl (traversalOrder p)
  refine ⟨n, h1, ?_, h3, ?_⟩
  · rw [fold_with_eq]
    exact h2
  · intro hlt
    rw [fold_with_eq]
    cases hb : (consumeSeen consume full fl (traversalOrder p)).2 with
    | false => exact absurd (h4 hb) (by omega)
    | true => exact h5 hb

/-- C6: the expansion rule fires exactly once per node occurrence, at the
moment the node is expanded.  A never-full fold breeds exactly the
frontier-descended occurrences, once each and in delivery order, and never
a `seen` node, while delivering the `seen` buffer then those same
occurrences; `split` breeds exactly what its chain drain pops, those nodes
move into the remainder's `seen` buffer (so they are later delivered
without re-expansion), and the halves partition the post-drain buffer. -/
theorem breed_exactly_once {α : Type} {φ : Type} (consume : φ → Tree α → φ)
    (p : WalkTreeProducer α) (fl : φ) :
    (fold_withB consume (fun _ => false) p fl).2 =
      p.to_explore.flatMap seqGroup ∧
    visit p = p.seen ++ p.to_explore.flatMap seqGroup ∧
    (splitB p).2 = (drainB p).2 ∧
    (drain p).seen = p.seen ++ (drainB p).2 ∧
    (split p).1.seen ++ (((split p).2).map WalkTreeProducer.seen).getD [] =
      (drain p).seen := by
  refine ⟨?_, ?_, rfl, (drainB_spec p).2, split_seen_partition p⟩
  · rw [fold_withB_neverFull]
  · rw [visit_eq, traversalOrder]

/-- C7: splitting an indivisible unit — a single leaf with no pending
children, whether still in the frontier or already in the `seen` buffer —
yields `none` as the second half and hands back the unit itself (same
remaining items, hence the same fold output). -/
theorem split_indivisible_returns_none {α : Type} (s : Tree α)
    (hc : s.children = []) :
    split (initialProducer s) = (⟨[], [s]⟩, none) ∧
    split ⟨[], [s]⟩ = (⟨[], [s]⟩, none) ∧
    visit (⟨[], [s]⟩ : WalkTreeProducer α) = visit (initialProducer s) := by
  have hdrain : drain (initialProducer s) = ⟨[], [s]⟩ := by
    show drain ⟨[[s]], []⟩ = _
    rw [drain_one]
    simp only [hc, List.isEmpty_nil, if_true, List.nil_append]
    rw [drain_nil]
  refine ⟨?_, ?_, ?_⟩
  · unfold split
    rw [hdrain]
    simp [splitDrained, seenFallback, split_vec]
  · unfold split
    rw [drain_nil]
    simp [splitDrained, seenFallback, split_vec]
  · rw [visit_eq, visit_eq, traversalOrder_init, dfs_def, hc]
    simp [traversalOrder]

/-- Witness for C7 at the concrete leaf `node 0 []`. -/
theorem split_indivisible_returns_none_w :
    split (initialProducer (Tree.node (0 : ℕ) [])) =
      (⟨[], [Tree.node 0 []]⟩, none) ∧
    split (⟨[], [Tree.node (0 : ℕ) []]⟩ : WalkTreeProducer ℕ) =
      (⟨[], [Tree.node 0 []]⟩, none) ∧
    visit (⟨[], [Tree.node (0 : ℕ) []]⟩ : WalkTreeProducer ℕ) =
      visit (initialProducer (Tree.node 0 [])) :=
  split_indivisible_returns_none (Tree.node 0 []) rfl

/-- C8: Scenario A.  The tree `t4` is exactly what the rule
`e ≤ 2 → []`, otherwise `[e/2, e/2+1]` generates from root 4 (checked on
every reachable node); the sequential fold of the initial unit visits the
states in the order 4, 2, 3, 1, 2 and their sum is 12. -/
theorem scenario_a :
    (∀ u ∈ dfs t4, u.children.map Tree.val = breed4 u.val) ∧
    visitVals (initialProducer t4) = [4, 2, 3, 1, 2] ∧
    (visitVals (initialProducer t4)).sum = 12 := by
  have hd : dfs t4 = [t4, Tree.node 2 [],
      Tree.node 3 [Tree.node 1 [], Tree.node 2 []],
      Tree.node 1 [], Tree.node 2 []] := by
    simp [dfs, t4]
  have hv : visitVals (initialProducer t4) = [4, 2, 3, 1, 2] := by
    rw [visitVals_eq, traversalOrder_init, hd]
    simp [t4, Tree.val]
  refine ⟨?_, hv, by rw [hv]; rfl⟩
  intro u hu
  rw [hd] at hu
  simp only [List.mem_cons, List.not_mem_nil, or_false] at hu
  rcases hu with rfl | rfl | rfl | rfl | rfl <;> decide

/-- C9: in every unit reachable from the adapter's initial unit by splits,
the frontier deque holds at most one sibling group and no empty group;
after the chain drain the frontier is either empty or a single group of at
least two nodes, so the `seen` bisection fallback in `split` can only
trigger when the frontier is empty. -/
theorem reachable_frontier_invariant {α : Type} (t : Tree α)
    (p : WalkTreeProducer α) (h : Reachable t p) :
    (p.to_explore.length ≤ 1 ∧ ∀ g ∈ p.to_explore, g ≠ []) ∧
    ((drain p).to_explore = [] ∨
      ∃ g, (drain p).to_explore = [g] ∧ 2 ≤ g.length) := by
  have hg := reachable_good h
  refine ⟨⟨hg.1, hg.2⟩, ?_⟩
  have hgd := drain_good p hg
  rcases drain_front p with h0 | ⟨g, rest, hgr, hne⟩
  · exact Or.inl h0
  · right
    have hrest : rest = [] := by
      have h1 := hgd.1
      rw [hgr] at h1
      simp only [List.length_cons] at h1
      exact List.length_eq_zero.mp (by omega)
    subst hrest
    refine ⟨g, hgr, ?_⟩
    have hgne : g ≠ [] := hgd.2 g (by rw [hgr]; simp)
    have hpos : 0 < g.length := List.length_pos.mpr hgne
    omega

/-- Witness for C9 at the initial unit of a single-leaf tree. -/
theorem reachable_frontier_invariant_w :
    ((initialProducer (Tree.node (0 : ℕ) [])).to_explore.length ≤ 1 ∧
      ∀ g ∈ (initialProducer (Tree.node (0 : ℕ) [])).to_explore, g ≠ []) ∧
    ((drain (initialProducer (Tree.node (0 : ℕ) []))).to_explore = [] ∨
      ∃ g, (drain (initialProducer (Tree.node (0 : ℕ) []))).to_explore = [g] ∧
        2 ≤ g.length) :=
  reachable_frontier_invariant (Tree.node 0 []) _ Reachable.init

/-- C10: splitting the initial unit of a single-leaf tree produces no
second half but is not a no-op: the expansion rule is invoked on the leaf
(the breed log is exactly `[leaf]`), the frontier of the remainder is
empty and the leaf now sits in the `seen` buffer, so the remainder differs
from the input unit while still folding to exactly the leaf. -/
theorem split_single_leaf_state_change {α : Type} (v : α) :
    split (initialProducer (Tree.node v [])) =
      (⟨[], [Tree.node v []]⟩, none) ∧
    (splitB (initialProducer (Tree.node v []))).2 = [Tree.node v []] ∧
    (⟨[], [Tree.node v []]⟩ : WalkTreeProducer α) ≠
      initialProducer (Tree.node v []) ∧
    visit (⟨[], [Tree.node v []]⟩ : WalkTreeProducer α) = [Tree.node v []] := by
  have hdrain : drain (initialProducer (Tree.node v [])) = ⟨[], [Tree.node v []]⟩ := by
    show drain ⟨[[Tree.node v []]], []⟩ = _
    rw [drain_one]
    simp only [Tree.children, List.isEmpty_nil, if_true, List.nil_append]
    rw [drain_nil]
  refine ⟨?_, ?_, ?_, ?_⟩
  · unfold split
    rw [hdrain]
    simp [splitDrained, seenFallback, split_vec]
  · show (drainB ⟨[[Tree.node v []]], []⟩).2 = _
    rw [drainB_one]
    simp only [Tree.children, List.isEmpty_nil, if_true, List.nil_append]
    rw [drainB_nil]
  · intro h
    have h2 := congrArg WalkTreeProducer.to_explore h
    simp [initialProducer] at h2
  · rw [visit_eq]
    simp [traversalOrder]

end RayonWalk
